import Mathlib

/-
  Verification development for the-sentiment-oracle python-engine core.

  Shallow embedding of the ingestion/scoring/smoothing pipeline:
    app/config.py                    — tunable constants
    app/scoring/vibe_score.py        — compute (Scoring Engine)
    app/scoring/smoothing.py         — Smoother (EMA)
    app/ingestion/deduplicator.py    — RollingDeduplicator (cross-cycle dedup)
    app/ingestion/aggregator.py      — aggregate (intra-batch stabilizer)
    app/ingestion/stream_manager.py  — StreamManager (cooldown + cache)
    app/ingestion/source_router.py   — _timed_fetch / get_posts (hybrid mode)
    app/monitoring/ingestion_metrics.py — metrics counters

  Python floats are modelled as exact rationals (ℚ); `round(x, 2)` is
  modelled as banker's rounding (round-half-to-even) at 2 decimal places
  over the exact value.  Hash digests (sha256/md5 of normalized text) are
  modelled by the normalized text itself, a collision-free abstraction.
  Python dicts keyed by strings are modelled as insertion-ordered
  association lists.  Wall-clock/latency bookkeeping (perf_counter values,
  ISO timestamps) is elided; the monotonic clock is passed in explicitly.
-/

namespace SentimentOracle

/-! ## config.py -/

/-- config.py: MIN_SCORE = -100 (score lower bound). -/
def MIN_SCORE : ℚ := -100

/-- config.py: MAX_SCORE = 100 (score upper bound). -/
def MAX_SCORE : ℚ := 100

/-- config.py: MAX_POSTS = 50 (aggregator truncation bound). -/
def MAX_POSTS : ℕ := 50

/-- config.py: EMA_ALPHA = 0.3 (default smoothing factor). -/
def EMA_ALPHA : ℚ := 3/10

/-- config.py: ENGAGEMENT_WEIGHT_MULTIPLIER = 1.5. -/
def ENGAGEMENT_WEIGHT_MULTIPLIER : ℚ := 3/2

/-- config.py: MIN_POST_WORD_COUNT = 5. -/
def MIN_POST_WORD_COUNT : ℕ := 5

/-- config.py: DEDUP_WINDOW_SIZE = 500. -/
def DEDUP_WINDOW_SIZE : ℕ := 500

/-- config.py: RSS_FETCH_INTERVAL = 30 seconds. -/
def RSS_FETCH_INTERVAL : ℚ := 30

/-! ## Rounding: Python `round(x, 2)` over exact rationals -/

/-- Round a rational to the nearest integer, ties to even (banker's
    rounding): models Python's built-in `round` on the exact value. -/
def round_half_even (x : ℚ) : ℤ :=
  if Int.fract x = 1/2 then (if ⌊x⌋ % 2 = 0 then ⌊x⌋ else ⌊x⌋ + 1) else round x

/-- Models Python `round(x, 2)`: round to 2 decimal places. -/
def round2 (x : ℚ) : ℚ := (round_half_even (x * 100) : ℚ) / 100

theorem round_half_even_le (x : ℚ) : (round_half_even x : ℚ) ≤ x + 1/2 := by
  unfold round_half_even
  split
  · rename_i hf
    have hx : x = ⌊x⌋ + 1/2 := by
      have := Int.fract_add_floor x
      rw [hf] at this
      linarith
    split <;> push_cast <;> linarith
  · rw [round_eq]
    have := Int.floor_le (x + 1/2)
    linarith

theorem le_round_half_even (x : ℚ) : x - 1/2 ≤ (round_half_even x : ℚ) := by
  unfold round_half_even
  split
  · rename_i hf
    have hx : x = ⌊x⌋ + 1/2 := by
      have := Int.fract_add_floor x
      rw [hf] at this
      linarith
    split <;> push_cast <;> linarith
  · rw [round_eq]
    have := Int.lt_floor_add_one (x + 1/2)
    linarith

/-- Rounding to 2 decimals keeps a value inside [-100, 100]. -/
theorem round2_bounds (x : ℚ) (h1 : -100 ≤ x) (h2 : x ≤ 100) :
    -100 ≤ round2 x ∧ round2 x ≤ 100 := by
  unfold round2
  have hle : (round_half_even (x * 100) : ℚ) ≤ x * 100 + 1/2 :=
    round_half_even_le (x * 100)
  have hge : x * 100 - 1/2 ≤ (round_half_even (x * 100) : ℚ) :=
    le_round_half_even (x * 100)
  have hub : (round_half_even (x * 100) : ℚ) < ((10001 : ℤ) : ℚ) := by
    push_cast
    linarith
  have hlb : ((-10001 : ℤ) : ℚ) < (round_half_even (x * 100) : ℚ) := by
    push_cast
    linarith
  have hub2 : round_half_even (x * 100) ≤ 10000 := by
    have h : round_half_even (x * 100) < 10001 := by exact_mod_cast hub
    omega
  have hlb2 : -10000 ≤ round_half_even (x * 100) := by
    have h : -10001 < round_half_even (x * 100) := by exact_mod_cast hlb
    omega
  constructor
  · have : ((-10000 : ℤ) : ℚ) ≤ (round_half_even (x * 100) : ℚ) := by
      exact_mod_cast hlb2
    push_cast at this
    linarith
  · have : (round_half_even (x * 100) : ℚ) ≤ ((10000 : ℤ) : ℚ) := by
      exact_mod_cast hub2
    push_cast at this
    linarith

/-! ## Scoring Engine — app/scoring/vibe_score.py -/

/-- Output of `analyze` in app/nlp/sentiment.py, attached to a post as its
    `sentiment` field: `{raw_label, confidence, polarity_score}`. -/
structure Sentiment where
  raw_label : Option String := none
  confidence : ℚ
  polarity_score : ℚ
deriving DecidableEq, Repr

/-- A post as consumed by the Scoring Engine: a dict carrying an optional
    `engagement` key and the attached `sentiment` dict. -/
structure AnalyzedPost where
  engagement : Option ℤ := none
  sentiment : Sentiment
deriving DecidableEq, Repr

/-- Return value of `compute` in vibe_score.py. -/
structure ScoreSnapshot where
  raw_score : ℚ
  post_count : ℕ
  positive_count : ℕ
  negative_count : ℕ
deriving DecidableEq, Repr

/-- vibe_score.py: `weight = engagement * confidence * ENGAGEMENT_WEIGHT_MULTIPLIER`
    with `engagement = post.get("engagement", 1)`. -/
def post_weight (p : AnalyzedPost) : ℚ :=
  ((p.engagement.getD 1 : ℤ) : ℚ) * p.sentiment.confidence * ENGAGEMENT_WEIGHT_MULTIPLIER

/-- vibe_score.py: `signal = polarity * weight`. -/
def post_signal (p : AnalyzedPost) : ℚ :=
  p.sentiment.polarity_score * post_weight p

/-- vibe_score.py `compute(posts)`: empty input short-circuits to the zero
    snapshot; otherwise mean weighted signal, normalized by the mean weight
    (guarded by `max_possible_weight > 0`), scaled to ±100, clamped to
    [MIN_SCORE, MAX_SCORE] and rounded to 2 decimals. -/
def compute (posts : List AnalyzedPost) : ScoreSnapshot :=
  if posts.isEmpty then
    { raw_score := 0, post_count := 0, positive_count := 0, negative_count := 0 }
  else
    let signals := posts.map post_signal
    let positive_count := posts.countP (fun p => decide (0 < p.sentiment.polarity_score))
    let negative_count := posts.countP (fun p => decide (¬ 0 < p.sentiment.polarity_score))
    let max_possible_weight := (posts.map post_weight).sum
    let community_signal := signals.sum / (signals.length : ℚ)
    let raw_score :=
      if 0 < max_possible_weight then
        (community_signal / (max_possible_weight / (signals.length : ℚ))) * 100
      else 0
    let clamped := max MIN_SCORE (min MAX_SCORE raw_score)
    { raw_score := round2 clamped
      post_count := posts.length
      positive_count := positive_count
      negative_count := negative_count }

/-- Reference scoring definition, following claim C2's words: per-post
    weight and signal, `raw_score = round2 (clamp ((mean signal / mean weight) * 100))`
    with `raw_score = 0` when the mean weight is 0, `positive_count` the
    number of posts with polarity > 0 and `negative_count` the number with
    polarity ≤ 0. -/
def computeRef (posts : List AnalyzedPost) : ScoreSnapshot :=
  if posts = [] then
    { raw_score := 0, post_count := 0, positive_count := 0, negative_count := 0 }
  else
    let mean_weight := (posts.map post_weight).sum / (posts.length : ℚ)
    let mean_signal := (posts.map post_signal).sum / (posts.length : ℚ)
    let raw_score := if mean_weight = 0 then 0 else (mean_signal / mean_weight) * 100
    { raw_score := round2 (max MIN_SCORE (min MAX_SCORE raw_score))
      post_count := posts.length
      positive_count := posts.countP (fun p => decide (0 < p.sentiment.polarity_score))
      negative_count := posts.countP (fun p => decide (p.sentiment.polarity_score ≤ 0)) }

/-! ## Smoother — app/scoring/smoothing.py -/

/-- Stateful EMA smoother state: `alpha`, `_previous_score`, `_history`. -/
structure Smoother where
  alpha : ℚ := EMA_ALPHA
  previous_score : Option ℚ := none
  history : List ℚ := []
deriving DecidableEq, Repr

/-- smoothing.py `Smoother.smooth`: first call passes the raw score through,
    later calls blend `alpha * raw + (1 - alpha) * previous`; the result is
    rounded to 2 decimals, stored as the new previous value and appended to
    the history. -/
def Smoother.smooth (s : Smoother) (raw_score : ℚ) : ℚ × Smoother :=
  let smoothed :=
    match s.previous_score with
    | none => raw_score
    | some prev => s.alpha * raw_score + (1 - s.alpha) * prev
  let rounded := round2 smoothed
  (rounded,
   { s with previous_score := some rounded, history := s.history ++ [rounded] })

/-- Feed a sequence of raw scores through a smoother, collecting the
    returned values and the final state. -/
def Smoother.run (s : Smoother) (raws : List ℚ) : List ℚ × Smoother :=
  match raws with
  | [] => ([], s)
  | r :: rest =>
      let step := s.smooth r
      let tail := step.2.run rest
      (step.1 :: tail.1, tail.2)

/-! ## Posts and text handling -/

/-- A raw social post: Python dict whose keys may each be absent.
    Engagement is an integer when present (spec §3). -/
structure Post where
  id : Option String := none
  text : Option String := none
  engagement : Option ℤ := none
  timestamp : Option String := none
  author : Option String := none
  source : Option String := none
deriving DecidableEq, Repr

/-- Counts the maximal whitespace-free runs of a character list, the flag
    recording whether the previous character sat inside a word. -/
def wordCountAux : List Char → Bool → ℕ
  | [], _ => 0
  | c :: rest, inWord =>
      if c.isWhitespace then wordCountAux rest false
      else (if inWord then 0 else 1) + wordCountAux rest true

/-- Python `len(text.split())`: number of maximal whitespace-free runs. -/
def wordCount (s : String) : ℕ := wordCountAux s.data false

/-- Python `text.strip()`: drop leading and trailing whitespace (modelled
    over the character list so the kernel can evaluate it). -/
def strip (s : String) : String :=
  ⟨(((s.data.dropWhile Char.isWhitespace).reverse.dropWhile Char.isWhitespace).reverse)⟩

/-- Python `text.lower()` (modelled over the character list). -/
def lower (s : String) : String := ⟨s.data.map Char.toLower⟩

/-- RollingDeduplicator._compute_hash: sha256 hexdigest of
    `text.strip().lower()`; the digest is modelled by the normalized text
    itself (collision-free abstraction of sha256). -/
def compute_hash (text : String) : String := lower (strip text)

/-- aggregator._text_hash: md5 hexdigest of `text.strip().lower()`; same
    collision-free abstraction as `compute_hash`. -/
def text_hash (text : String) : String := lower (strip text)

/-- Hash of the text a post carries (`post.get("text", "")`). -/
def post_hash (p : Post) : String := compute_hash (p.text.getD "")

/-! ## Rolling Deduplicator — app/ingestion/deduplicator.py -/

/-- Cross-cycle deduplicator state: `_window_size`, the FIFO `_hash_order`
    (front = oldest) and the membership set `_hash_set`. -/
structure RollingDeduplicator where
  window_size : ℕ := DEDUP_WINDOW_SIZE
  hash_order : List String := []
  hash_set : Finset String := ∅
deriving DecidableEq

/-- deduplicator._evict_oldest: pop from the front of the FIFO queue and
    discard from the set while the queue is longer than the window size. -/
def evict_loop (window_size : ℕ) : List String → Finset String → List String × Finset String
  | [], s => ([], s)
  | h :: t, s =>
      if window_size < (h :: t).length then evict_loop window_size t (s.erase h)
      else (h :: t, s)

/-- The per-post loop of RollingDeduplicator.deduplicate: drop posts shorter
    than MIN_POST_WORD_COUNT, drop posts whose hash is already in the window,
    and admit the rest, appending their hash to the FIFO queue and set.
    Returns (surviving posts, final queue, final set). -/
def dedup_loop (order : List String) (hset : Finset String) :
    List Post → List Post × List String × Finset String
  | [] => ([], order, hset)
  | post :: rest =>
      let text := post.text.getD ""
      if wordCount text < MIN_POST_WORD_COUNT then dedup_loop order hset rest
      else if compute_hash text ∈ hset then dedup_loop order hset rest
      else
        let r := dedup_loop (order ++ [compute_hash text]) (insert (compute_hash text) hset) rest
        (post :: r.1, r.2)

/-- RollingDeduplicator.deduplicate: run the filtering loop over the batch,
    then evict the oldest hashes down to the window size. -/
def RollingDeduplicator.deduplicate (d : RollingDeduplicator) (posts : List Post) :
    List Post × RollingDeduplicator :=
  let r := dedup_loop d.hash_order d.hash_set posts
  let e := evict_loop d.window_size r.2.1 r.2.2
  (r.1, { d with hash_order := e.1, hash_set := e.2 })

/-- Well-formedness of the deduplicator state: the FIFO queue has no
    repeated hash, and the membership set holds exactly the queue's hashes. -/
def RollingDeduplicator.WF (d : RollingDeduplicator) : Prop :=
  d.hash_order.Nodup ∧ d.hash_set = d.hash_order.toFinset

instance (d : RollingDeduplicator) : Decidable d.WF := by
  unfold RollingDeduplicator.WF
  infer_instance

/-! ## Aggregator — app/ingestion/aggregator.py -/

/-- The sort key of aggregate's step 1: `p.get("engagement", 0)`. -/
def sort_key (p : Post) : ℤ := p.engagement.getD 0

/-- One insertion step of the stable descending sort: place `p` before the
    first element whose key is ≤ its own, after all strictly larger keys. -/
def insert_desc (p : Post) : List Post → List Post
  | [] => [p]
  | q :: t => if sort_key q ≤ sort_key p then p :: q :: t else q :: insert_desc p t

/-- Models Python `sorted(posts, key=lambda p: p.get("engagement", 0),
    reverse=True)`: the stable descending sort by engagement (a stable sort
    is uniquely determined by sortedness plus per-key order preservation,
    both proved below). -/
def sort_by_engagement_desc : List Post → List Post
  | [] => []
  | p :: rest => insert_desc p (sort_by_engagement_desc rest)

/-- Step 2 of aggregate: walk the sorted sequence, keeping the first
    occurrence of each normalized-text hash. -/
def dedup_walk (seen : Finset String) : List Post → List Post
  | [] => []
  | p :: rest =>
      let h := text_hash (p.text.getD "")
      if h ∈ seen then dedup_walk seen rest
      else p :: dedup_walk (insert h seen) rest

/-- aggregator.aggregate: sort descending by engagement, deduplicate by
    text hash (first occurrence wins), truncate to MAX_POSTS. -/
def aggregate (posts : List Post) : List Post :=
  (dedup_walk ∅ (sort_by_engagement_desc posts)).take MAX_POSTS

/-! ## Stream Manager — app/ingestion/stream_manager.py -/

/-- Python `d.get(k, default)` on an insertion-ordered dict modelled as an
    association list. -/
def dict_get {α : Type} (d : List (String × α)) (k : String) (default : α) : α :=
  match d.find? (fun kv => kv.1 == k) with
  | some kv => kv.2
  | none => default

/-- Python `d[k] = v` on an insertion-ordered dict modelled as an
    association list: overwrite in place or append. -/
def dict_set {α : Type} : List (String × α) → String → α → List (String × α)
  | [], k, v => [(k, v)]
  | kv :: t, k, v => if kv.1 = k then (kv.1, v) :: t else kv :: dict_set t k v

/-- StreamManager state: cooldown interval, `_last_fetch_time` and `_cache`,
    both dicts keyed by source name.  The monotonic clock is passed to
    `fetch` explicitly. -/
structure StreamManager where
  fetch_interval : ℚ := RSS_FETCH_INTERVAL
  last_fetch_time : List (String × ℚ) := []
  cache : List (String × List Post) := []
deriving DecidableEq

/-- StreamManager.fetch: the adapter call is modelled by the value it would
    return this cycle (`.ok posts`) or the exception it would raise
    (`.error msg`).  If the cooldown has elapsed the adapter runs: on
    success its result is cached, the timestamp updated and the result
    returned; on exception nothing is updated and the code falls through to
    the cached behaviour.  Within the cooldown the cache (or the empty
    list) is returned.  The function is total: no exception propagates. -/
def StreamManager.fetch (sm : StreamManager) (source_name : String) (now : ℚ)
    (fetch_fn : Except String (List Post)) : List Post × StreamManager :=
  let last_time := dict_get sm.last_fetch_time source_name 0
  let elapsed := now - last_time
  if sm.fetch_interval ≤ elapsed then
    match fetch_fn with
    | .ok results =>
        (results,
         { sm with
             cache := dict_set sm.cache source_name results
             last_fetch_time := dict_set sm.last_fetch_time source_name now })
    | .error _ => (dict_get sm.cache source_name [], sm)
  else
    (dict_get sm.cache source_name [], sm)

/-! ## Metrics — app/monitoring/ingestion_metrics.py -/

/-- Per-source counters (latency and timestamp bookkeeping elided: they
    carry wall-clock values). -/
structure SourceMetrics where
  fetch_count : ℕ := 0
  success_count : ℕ := 0
  failure_count : ℕ := 0
  total_posts : ℕ := 0
  last_error : Option String := none
deriving DecidableEq, Repr

/-- IngestionMetricsTracker state. -/
structure IngestionMetrics where
  sources : List (String × SourceMetrics) := []
  dedup_count : ℕ := 0
  total_cycles : ℕ := 0
deriving DecidableEq, Repr

/-- record_fetch: create the source entry on first use, bump fetch_count,
    and on success bump success_count/total_posts, on failure bump
    failure_count and store the error. -/
def record_fetch (m : IngestionMetrics) (source : String) (success : Bool)
    (post_count : ℕ) (error : Option String) : IngestionMetrics :=
  let sm0 := dict_get m.sources source {}
  let sm1 := { sm0 with fetch_count := sm0.fetch_count + 1 }
  let sm2 :=
    if success then
      { sm1 with
          success_count := sm1.success_count + 1
          total_posts := sm1.total_posts + post_count }
    else
      { sm1 with failure_count := sm1.failure_count + 1, last_error := error }
  { m with sources := dict_set m.sources source sm2 }

/-! ## Source Router — app/ingestion/source_router.py -/

/-- Python `len(post)` on the dict behind a `Post`: the number of keys
    present. -/
def Post.numKeys (p : Post) : ℕ :=
  (if p.id.isSome then 1 else 0) + (if p.text.isSome then 1 else 0) +
  (if p.engagement.isSome then 1 else 0) + (if p.timestamp.isSome then 1 else 0) +
  (if p.author.isSome then 1 else 0) + (if p.source.isSome then 1 else 0)

/-- What the tuple unpack `posts, is_fresh = fetch_fn()` inside
    source_router._timed_fetch does to the bare post list that
    `managed_fetch` (StreamManager.fetch) actually returns: unpacking a
    list succeeds only when it has exactly two elements, binding `posts`
    to the first post dict and `is_fresh` to the second; any other length
    raises ValueError, which the surrounding `except` turns into the
    `([], True)` fallback. -/
inductive TimedFetchOutcome where
  | unpacked (posts : Post) (is_fresh : Post)
  | fallback
deriving DecidableEq, Repr

/-- The unpack of source_router._timed_fetch, without metrics. -/
def timed_fetch (res : List Post) : TimedFetchOutcome :=
  match res with
  | [p, q] => .unpacked p q
  | _ => .fallback

/-- source_router._timed_fetch applied to the list its fetch_fn returns:
    on a successful unpack it records a success whose post count is
    `len(posts)` with `posts` bound to the first dict; otherwise it records
    a failure (the caught ValueError) and falls back to `([], True)`. -/
def timed_fetch_m (m : IngestionMetrics) (source : String) (res : List Post) :
    TimedFetchOutcome × IngestionMetrics :=
  match res with
  | [p, q] => (.unpacked p q, record_fetch m source true p.numKeys none)
  | _ => (.fallback, record_fetch m source false 0 (some "ValueError"))

/-- The mutable singletons get_posts reads and writes. -/
structure RouterState where
  sm : StreamManager
  dedup : RollingDeduplicator
  metrics : IngestionMetrics
deriving DecidableEq

/-- source_router.get_posts in hybrid mode; the two adapters are modelled
    by the value or exception each produces this cycle.  Both sources go
    through StreamManager.fetch and _timed_fetch.  When both unpacks fall
    back, `posts = [] + []`, `any_fresh = True or True`, and the batch is
    deduplicated; when either unpack bound post dicts, the concatenation
    `rss_posts + twitter_posts` applies `+` to a dict operand, raising a
    TypeError that propagates out of get_posts (record_cycle is never
    reached in that case). -/
def get_posts_hybrid (st : RouterState) (now : ℚ)
    (reddit_fn twitter_fn : Except String (List Post)) :
    Except String (List Post) × RouterState :=
  let r1 := st.sm.fetch "reddit" now reddit_fn
  let t1 := timed_fetch_m st.metrics "reddit" r1.1
  let r2 := r1.2.fetch "twitter" now twitter_fn
  let t2 := timed_fetch_m t1.2 "twitter" r2.1
  match t1.1, t2.1 with
  | .fallback, .fallback =>
      let posts : List Post := [] ++ []
      let d := (st.dedup).deduplicate posts
      let collapsed := posts.length - d.1.length
      let m1 :=
        if 0 < collapsed then { t2.2 with dedup_count := t2.2.dedup_count + collapsed }
        else t2.2
      let m2 := { m1 with total_cycles := m1.total_cycles + 1 }
      (.ok d.1, ⟨r2.2, d.2, m2⟩)
  | _, _ =>
      (.error "TypeError: can only concatenate list (not \x22dict\x22) to list",
       ⟨r2.2, st.dedup, t2.2⟩)

/-! ## Helper lemmas: scoring bounds -/

theorem clamp_bounds (r : ℚ) :
    MIN_SCORE ≤ max MIN_SCORE (min MAX_SCORE r) ∧
      max MIN_SCORE (min MAX_SCORE r) ≤ MAX_SCORE := by
  refine ⟨le_max_left _ _, max_le ?_ (min_le_left _ _)⟩
  norm_num [MIN_SCORE, MAX_SCORE]

theorem compute_raw_score_bounds (posts : List AnalyzedPost) :
    MIN_SCORE ≤ (compute posts).raw_score ∧ (compute posts).raw_score ≤ MAX_SCORE := by
  unfold compute
  split
  · norm_num [MIN_SCORE, MAX_SCORE]
  · have h := clamp_bounds
      (if 0 < (posts.map post_weight).sum then
        ((posts.map post_signal).sum / ((posts.map post_signal).length : ℚ) /
            ((posts.map post_weight).sum / ((posts.map post_signal).length : ℚ))) * 100
      else 0)
    have hb := round2_bounds
      (max MIN_SCORE (min MAX_SCORE
        (if 0 < (posts.map post_weight).sum then
          ((posts.map post_signal).sum / ((posts.map post_signal).length : ℚ) /
              ((posts.map post_weight).sum / ((posts.map post_signal).length : ℚ))) * 100
        else 0)))
      h.1 h.2
    exact hb

/-! ## Helper lemmas: smoother bounds -/

/-- A smoother state whose stored previous value (if any) is in range. -/
def Smoother.InRange (s : Smoother) : Prop :=
  ∀ p, s.previous_score = some p → MIN_SCORE ≤ p ∧ p ≤ MAX_SCORE

theorem smooth_step_bounds {s : Smoother} {raw : ℚ}
    (ha0 : 0 ≤ s.alpha) (ha1 : s.alpha ≤ 1) (hprev : s.InRange)
    (hraw1 : MIN_SCORE ≤ raw) (hraw2 : raw ≤ MAX_SCORE) :
    (MIN_SCORE ≤ (s.smooth raw).1 ∧ (s.smooth raw).1 ≤ MAX_SCORE) ∧
      (s.smooth raw).2.alpha = s.alpha ∧ (s.smooth raw).2.InRange := by
  have key : MIN_SCORE ≤ (s.smooth raw).1 ∧ (s.smooth raw).1 ≤ MAX_SCORE := by
    cases hp : s.previous_score with
    | none =>
        simp only [Smoother.smooth, hp]
        simp only [MIN_SCORE, MAX_SCORE] at hraw1 hraw2 ⊢
        exact round2_bounds _ hraw1 hraw2
    | some prev =>
        have hpr := hprev prev hp
        simp only [Smoother.smooth, hp]
        simp only [MIN_SCORE, MAX_SCORE] at hraw1 hraw2 hpr ⊢
        refine round2_bounds _ ?_ ?_ <;> nlinarith [hpr.1, hpr.2]
  refine ⟨key, rfl, ?_⟩
  intro p hpp
  have hps : (s.smooth raw).2.previous_score = some (s.smooth raw).1 := rfl
  rw [hps] at hpp
  cases hpp
  exact key

theorem smooth_run_bounds (raws : List ℚ) : ∀ s : Smoother,
    0 ≤ s.alpha → s.alpha ≤ 1 → s.InRange →
    (∀ r ∈ raws, MIN_SCORE ≤ r ∧ r ≤ MAX_SCORE) →
    ∀ y ∈ (s.run raws).1, MIN_SCORE ≤ y ∧ y ≤ MAX_SCORE := by
  induction raws with
  | nil => intro s _ _ _ _ y hy; simp [Smoother.run] at hy
  | cons r rest ih =>
      intro s ha0 ha1 hprev hmem y hy
      have hr := hmem r (List.mem_cons_self r rest)
      have step := smooth_step_bounds ha0 ha1 hprev hr.1 hr.2
      simp only [Smoother.run, List.mem_cons] at hy
      rcases hy with rfl | hy
      · exact step.1
      · exact ih (s.smooth r).2 (step.2.1 ▸ ha0) (step.2.1 ▸ ha1) step.2.2
          (fun x hx => hmem x (List.mem_cons_of_mem r hx)) y hy

/-! ## Claim theorems: C1, C2, C5 -/

/-- C1: every raw_score the Scoring Engine returns lies in
    [MIN_SCORE, MAX_SCORE] (for every input, in particular the valid ones
    the claim describes); and for a smoother whose alpha is in [0, 1]
    (§4.6's contract), if the stored previous value and every raw score fed
    in lie in [MIN_SCORE, MAX_SCORE], every value smooth returns lies in
    [MIN_SCORE, MAX_SCORE]. -/
theorem C1_score_bounds :
    (∀ posts : List AnalyzedPost,
        MIN_SCORE ≤ (compute posts).raw_score ∧ (compute posts).raw_score ≤ MAX_SCORE) ∧
    (∀ (s : Smoother) (raws : List ℚ),
        0 ≤ s.alpha → s.alpha ≤ 1 → s.InRange →
        (∀ r ∈ raws, MIN_SCORE ≤ r ∧ r ≤ MAX_SCORE) →
        ∀ y ∈ (s.run raws).1, MIN_SCORE ≤ y ∧ y ≤ MAX_SCORE) :=
  ⟨compute_raw_score_bounds, fun s raws ha0 ha1 hprev hmem =>
    smooth_run_bounds raws s ha0 ha1 hprev hmem⟩

/-- Witness for C1 at concrete inputs: one analyzed post with engagement 2,
    confidence 9/10, polarity +1, and a fresh alpha = 0.3 smoother fed the
    in-range raw scores 50 and 100. -/
theorem C1_score_bounds_witness :
    (MIN_SCORE ≤ (compute [⟨some 2, ⟨none, 9/10, 1⟩⟩]).raw_score ∧
       (compute [⟨some 2, ⟨none, 9/10, 1⟩⟩]).raw_score ≤ MAX_SCORE) ∧
    (∀ y ∈ ((Smoother.mk (3/10) none []).run [50, 100]).1,
        MIN_SCORE ≤ y ∧ y ≤ MAX_SCORE) :=
  ⟨C1_score_bounds.1 [⟨some 2, ⟨none, 9/10, 1⟩⟩],
   C1_score_bounds.2 (Smoother.mk (3/10) none []) [50, 100] (by norm_num) (by norm_num)
     (by intro p hp; simp at hp)
     (by
       intro r hr
       simp only [List.mem_cons, List.not_mem_nil, or_false] at hr
       rcases hr with rfl | rfl <;> norm_num [MIN_SCORE, MAX_SCORE])⟩

/-- C2: on every list of analyzed posts whose engagement and confidence are
    nonnegative (as the AnalyzedPost data model guarantees), compute agrees
    with the reference definition of the claim, and its positive and
    negative counts sum to the post count. -/
theorem C2_compute_matches_reference (posts : List AnalyzedPost)
    (hvalid : ∀ p ∈ posts,
      0 ≤ ((p.engagement.getD 1 : ℤ) : ℚ) ∧ 0 ≤ p.sentiment.confidence) :
    compute posts = computeRef posts ∧
      (compute posts).positive_count + (compute posts).negative_count
        = (compute posts).post_count := by
  refine ⟨?_, ?_⟩
  case refine_2 =>
    cases posts with
    | nil => simp [compute]
    | cons q rest =>
        simp only [compute, List.isEmpty_cons, Bool.false_eq_true, if_false]
        have h := (q :: rest).length_eq_countP_add_countP
          (fun p => decide (0 < p.sentiment.polarity_score))
        rw [h]
        congr 1
        refine List.countP_congr (fun a _ => ?_)
        simp
  cases posts with
  | nil => simp [compute, computeRef]
  | cons q rest =>
      have hwnn : ∀ p ∈ q :: rest, 0 ≤ post_weight p := by
        intro p hp
        have hv := hvalid p hp
        unfold post_weight
        exact mul_nonneg (mul_nonneg hv.1 hv.2) (by norm_num [ENGAGEMENT_WEIGHT_MULTIPLIER])
      have hsum : 0 ≤ ((q :: rest).map post_weight).sum :=
        List.sum_nonneg (by
          intro x hx
          obtain ⟨p, hp, rfl⟩ := List.mem_map.mp hx
          exact hwnn p hp)
      have hlen : (((q :: rest).map post_signal).length : ℚ) = ((q :: rest).length : ℚ) := by
        rw [List.length_map]
      have hcount : ((q :: rest).countP (fun p => decide (¬ 0 < p.sentiment.polarity_score)))
          = ((q :: rest).countP (fun p => decide (p.sentiment.polarity_score ≤ 0))) := by
        have hfun : (fun p : AnalyzedPost => decide (¬ 0 < p.sentiment.polarity_score))
            = (fun p : AnalyzedPost => decide (p.sentiment.polarity_score ≤ 0)) := by
          funext p
          simp [not_lt]
        rw [hfun]
      unfold compute computeRef
      simp only [List.isEmpty_cons, Bool.false_eq_true, if_false,
        reduceCtorEq, if_neg (List.cons_ne_nil q rest)]
      rw [hcount, hlen]
      rcases lt_or_eq_of_le hsum with hpos | hzero
      · have hne : ((q :: rest).map post_weight).sum / ((q :: rest).length : ℚ) ≠ 0 := by
          have hn : (0 : ℚ) < ((q :: rest).length : ℚ) := by
            exact_mod_cast Nat.succ_pos rest.length
          exact div_ne_zero (ne_of_gt hpos) (ne_of_gt hn)
        rw [if_pos hpos, if_neg hne]
      · rw [if_neg (by rw [← hzero]; exact lt_irrefl 0), if_pos (by rw [← hzero]; simp)]

/-- Witness for C2 at a concrete input: two analyzed posts, one positive
    with engagement 3 and confidence 1/2, one negative with engagement
    absent and confidence 1. -/
theorem C2_compute_matches_reference_witness :
    (compute [⟨some 3, ⟨none, 1/2, 1⟩⟩, ⟨none, ⟨none, 1, -1⟩⟩] =
      computeRef [⟨some 3, ⟨none, 1/2, 1⟩⟩, ⟨none, ⟨none, 1, -1⟩⟩]) ∧
    (compute [⟨some 3, ⟨none, 1/2, 1⟩⟩, ⟨none, ⟨none, 1, -1⟩⟩]).positive_count +
        (compute [⟨some 3, ⟨none, 1/2, 1⟩⟩, ⟨none, ⟨none, 1, -1⟩⟩]).negative_count
      = (compute [⟨some 3, ⟨none, 1/2, 1⟩⟩, ⟨none, ⟨none, 1, -1⟩⟩]).post_count :=
  C2_compute_matches_reference [⟨some 3, ⟨none, 1/2, 1⟩⟩, ⟨none, ⟨none, 1, -1⟩⟩]
    (by
      intro p hp
      simp only [List.mem_cons, List.not_mem_nil, or_false] at hp
      rcases hp with rfl | rfl <;> norm_num)

/-- C5 counterexample: the first call to smooth does not return the raw
    score itself when that score has more than 2 decimal places — the code
    rounds even the seeding call.  `smooth(0.126)` returns 0.13. -/
theorem C5_first_call_rounds :
    (({ alpha := 3/10 } : Smoother).smooth (63/500)).1 ≠ 63/500 := by
  norm_num [Smoother.smooth, round2, round_half_even, Int.fract, round_eq]

/-- C5 amended: the first call returns the raw score rounded to 2
    decimals (storing that rounded value as the seed); every later call
    returns alpha * raw + (1 - alpha) * previous rounded to 2 decimals,
    stores it as the new previous value and appends it to the history;
    with alpha = 0.3 a fresh smoother returns 50.0 then 65.0 on raw scores
    50.0 and 100.0; after seeding at 50.0, smooth(100.0) returns 50.0 when
    alpha = 0 and 100.0 when alpha = 1. -/
theorem C5_smoother_behaviour :
    (∀ (a : ℚ) (h : List ℚ) (raw : ℚ),
        (Smoother.mk a none h).smooth raw =
          (round2 raw, Smoother.mk a (some (round2 raw)) (h ++ [round2 raw]))) ∧
    (∀ (a prev : ℚ) (h : List ℚ) (raw : ℚ),
        (Smoother.mk a (some prev) h).smooth raw =
          (round2 (a * raw + (1 - a) * prev),
           Smoother.mk a (some (round2 (a * raw + (1 - a) * prev)))
             (h ++ [round2 (a * raw + (1 - a) * prev)]))) ∧
    ((Smoother.mk (3/10) none []).run [50, 100]).1 = [50, 65] ∧
    ((Smoother.mk 0 (some 50) []).smooth 100).1 = 50 ∧
    ((Smoother.mk 1 (some 50) []).smooth 100).1 = 100 := by
  refine ⟨fun a h raw => rfl, fun a prev h raw => rfl, ?_, ?_, ?_⟩ <;>
    norm_num [Smoother.run, Smoother.smooth, round2, round_half_even, Int.fract, round_eq]

/-! ## Helper lemmas: aggregator -/

/-- The hash aggregate deduplicates by: `_text_hash(post.get("text", ""))`. -/
def agg_hash (p : Post) : String := text_hash (p.text.getD "")

/-- The descending-engagement order of the aggregator's sort. -/
def keyGE (a b : Post) : Prop := sort_key b ≤ sort_key a

theorem insert_desc_perm (p : Post) (l : List Post) :
    (insert_desc p l).Perm (p :: l) := by
  induction l with
  | nil => simp [insert_desc]
  | cons q t ih =>
      unfold insert_desc
      split
      · exact List.Perm.refl _
      · exact (List.Perm.cons q ih).trans (List.Perm.swap p q t)

theorem sort_by_engagement_desc_perm (posts : List Post) :
    (sort_by_engagement_desc posts).Perm posts := by
  induction posts with
  | nil => simp [sort_by_engagement_desc]
  | cons p rest ih =>
      exact (insert_desc_perm p (sort_by_engagement_desc rest)).trans (ih.cons p)

theorem insert_desc_pairwise {l : List Post} (p : Post) (hl : l.Pairwise keyGE) :
    (insert_desc p l).Pairwise keyGE := by
  induction l with
  | nil => simp [insert_desc, List.pairwise_singleton]
  | cons q t ih =>
      obtain ⟨hq, ht⟩ := List.pairwise_cons.mp hl
      unfold insert_desc
      split
      · rename_i hle
        refine List.pairwise_cons.mpr ⟨?_, hl⟩
        intro x hx
        rcases List.mem_cons.mp hx with rfl | hx
        · exact hle
        · exact le_trans (hq x hx) hle
      · rename_i hgt
        push_neg at hgt
        refine List.pairwise_cons.mpr ⟨?_, ih ht⟩
        intro x hx
        rcases List.mem_cons.mp ((insert_desc_perm p t).mem_iff.mp hx) with rfl | hx
        · exact le_of_lt hgt
        · exact hq x hx

theorem sort_by_engagement_desc_pairwise (posts : List Post) :
    (sort_by_engagement_desc posts).Pairwise keyGE := by
  induction posts with
  | nil => simp [sort_by_engagement_desc]
  | cons p rest ih => exact insert_desc_pairwise p ih

theorem insert_desc_filter (p : Post) (l : List Post) (k : ℤ) :
    (insert_desc p l).filter (fun q => decide (sort_key q = k)) =
      if sort_key p = k then p :: l.filter (fun q => decide (sort_key q = k))
      else l.filter (fun q => decide (sort_key q = k)) := by
  induction l with
  | nil =>
      simp only [insert_desc, List.filter_cons, List.filter_nil]
      by_cases hp : sort_key p = k <;> simp [hp]
  | cons q t ih =>
      unfold insert_desc
      split
      · simp only [List.filter_cons]
        split <;> split <;> simp_all
      · rename_i hgt
        push_neg at hgt
        simp only [List.filter_cons, ih]
        by_cases hq : sort_key q = k <;> by_cases hp : sort_key p = k <;>
          simp_all

theorem sort_by_engagement_desc_filter (posts : List Post) (k : ℤ) :
    (sort_by_engagement_desc posts).filter (fun q => decide (sort_key q = k)) =
      posts.filter (fun q => decide (sort_key q = k)) := by
  induction posts with
  | nil => rfl
  | cons p rest ih =>
      unfold sort_by_engagement_desc
      rw [insert_desc_filter, List.filter_cons, ih]
      by_cases hp : sort_key p = k <;> simp [hp]

theorem dedup_walk_cons_not_mem {seen : Finset String} {p : Post} (t : List Post)
    (h : text_hash (p.text.getD "") ∉ seen) :
    dedup_walk seen (p :: t) = p :: dedup_walk (insert (text_hash (p.text.getD "")) seen) t := by
  simp only [dedup_walk]
  rw [if_neg h]

theorem dedup_walk_sublist (l : List Post) : ∀ seen, (dedup_walk seen l).Sublist l := by
  induction l with
  | nil => intro seen; simp [dedup_walk]
  | cons p t ih =>
      intro seen
      simp only [dedup_walk]
      split
      · exact (ih seen).cons p
      · exact (ih _).cons₂ p

theorem dedup_walk_hashes (l : List Post) : ∀ seen : Finset String,
    ((dedup_walk seen l).map agg_hash).Nodup ∧
      ∀ h ∈ (dedup_walk seen l).map agg_hash, h ∉ seen := by
  induction l with
  | nil => intro seen; simp [dedup_walk]
  | cons p t ih =>
      intro seen
      simp only [dedup_walk]
      split
      · exact ih seen
      · rename_i hnot
        obtain ⟨ihn, ihs⟩ := ih (insert (text_hash (p.text.getD "")) seen)
        constructor
        · simp only [List.map_cons, List.nodup_cons]
          refine ⟨fun hmem => ?_, ihn⟩
          exact ihs _ hmem (Finset.mem_insert_self _ _)
        · intro h hmem
          simp only [List.map_cons, List.mem_cons] at hmem
          rcases hmem with rfl | hmem
          · exact hnot
          · exact fun hs => ihs h hmem (Finset.mem_insert_of_mem hs)

theorem dedup_walk_represents (l : List Post) : ∀ seen : Finset String,
    l.Pairwise keyGE →
    ∀ p ∈ l, agg_hash p ∉ seen →
    ∃ q ∈ dedup_walk seen l, agg_hash q = agg_hash p ∧ sort_key p ≤ sort_key q := by
  induction l with
  | nil => intro seen _ p hp; simp at hp
  | cons q0 t ih =>
      intro seen hsort p hp hseen
      obtain ⟨hq0, ht⟩ := List.pairwise_cons.mp hsort
      simp only [dedup_walk]
      rcases List.mem_cons.mp hp with rfl | hpt
      · split
        · rename_i hin
          exact absurd hin hseen
        · exact ⟨p, List.mem_cons_self _ _, rfl, le_refl _⟩
      · split
        · rename_i hin
          exact ih seen ht p hpt hseen
        · by_cases hsame : agg_hash p = agg_hash q0
          · refine ⟨q0, List.mem_cons_self _ _, hsame.symm, hq0 p hpt⟩
          · have hnotin : agg_hash p ∉ insert (text_hash (q0.text.getD "")) seen := by
              intro hmem
              rcases Finset.mem_insert.mp hmem with heq | hmem
              · exact hsame heq
              · exact hseen hmem
            obtain ⟨q, hq, hqh, hqk⟩ := ih _ ht p hpt hnotin
            exact ⟨q, List.mem_cons_of_mem _ hq, hqh, hqk⟩

theorem sort_replicate (p : Post) (n : ℕ) :
    sort_by_engagement_desc (List.replicate n p) = List.replicate n p := by
  induction n with
  | zero => rfl
  | succ m ih =>
      rw [List.replicate_succ, sort_by_engagement_desc, ih]
      cases m with
      | zero => rfl
      | succ m2 => simp [List.replicate_succ, insert_desc]

theorem dedup_walk_replicate_mem (p : Post) (n : ℕ) :
    ∀ seen : Finset String, agg_hash p ∈ seen →
    dedup_walk seen (List.replicate n p) = [] := by
  induction n with
  | zero => intro seen _; rfl
  | succ m ih =>
      intro seen hmem
      simp only [agg_hash] at hmem
      rw [List.replicate_succ]
      simp only [dedup_walk]
      rw [if_pos hmem]
      exact ih seen (by simpa [agg_hash] using hmem)

/-! ## Claim theorem: C7 -/

/-- C7: aggregate stably sorts by engagement descending (the output of the
    sort is a permutation of the input whose per-key filtrations keep the
    original order), retains only the first occurrence of each
    normalized-text hash — the highest-engagement copy of each duplicate
    class — and truncates to MAX_POSTS; 50 identical posts collapse to 1.
    (Non-mutation of the input is inherent in the pure embedding.) -/
theorem C7_aggregate_spec :
    (∀ posts : List Post,
        (sort_by_engagement_desc posts).Perm posts ∧
        (∀ k : ℤ, (sort_by_engagement_desc posts).filter (fun q => decide (sort_key q = k))
            = posts.filter (fun q => decide (sort_key q = k))) ∧
        (aggregate posts).Pairwise keyGE ∧
        ((aggregate posts).map agg_hash).Nodup ∧
        (aggregate posts).length ≤ MAX_POSTS ∧
        (∀ p ∈ posts, ∃ q ∈ dedup_walk ∅ (sort_by_engagement_desc posts),
            agg_hash q = agg_hash p ∧ sort_key p ≤ sort_key q)) ∧
    (∀ p : Post, (aggregate (List.replicate 50 p)).length = 1) := by
  constructor
  · intro posts
    refine ⟨sort_by_engagement_desc_perm posts, sort_by_engagement_desc_filter posts,
      ?_, ?_, ?_, ?_⟩
    · exact ((sort_by_engagement_desc_pairwise posts).sublist
        ((List.take_sublist _ _).trans (dedup_walk_sublist _ ∅)))
    · exact ((dedup_walk_hashes (sort_by_engagement_desc posts) ∅).1.sublist
        ((List.take_sublist _ _).map agg_hash))
    · exact (List.length_take_le _ _)
    · intro p hp
      exact dedup_walk_represents (sort_by_engagement_desc posts) ∅
        (sort_by_engagement_desc_pairwise posts) p
        ((sort_by_engagement_desc_perm posts).mem_iff.mpr hp) (Finset.not_mem_empty _)
  · intro p
    have h50 : List.replicate 50 p = p :: List.replicate 49 p := rfl
    rw [aggregate, sort_replicate, h50,
      dedup_walk_cons_not_mem (List.replicate 49 p) (Finset.not_mem_empty _),
      dedup_walk_replicate_mem p 49 (insert (text_hash (p.text.getD "")) ∅)
        (by simp [agg_hash])]
    rfl

/-- Witness for C7 at a concrete input: the per-post conjuncts instantiated
    on a two-post list (the second hypothesis-bearing conjunct is applied at
    a member of that list). -/
theorem C7_aggregate_spec_witness :
    ({ text := some "aa", engagement := some 2 } : Post) ∈
      ([{ text := some "aa", engagement := some 2 },
        { text := some "bb", engagement := some 7 }] : List Post) ∧
    ∃ q ∈ dedup_walk ∅ (sort_by_engagement_desc
        [{ text := some "aa", engagement := some 2 },
         { text := some "bb", engagement := some 7 }]),
      agg_hash q = agg_hash ({ text := some "aa", engagement := some 2 } : Post) ∧
      sort_key ({ text := some "aa", engagement := some 2 } : Post) ≤ sort_key q :=
  ⟨by decide,
   (C7_aggregate_spec.1
      [{ text := some "aa", engagement := some 2 },
       { text := some "bb", engagement := some 7 }]).2.2.2.2.2
     { text := some "aa", engagement := some 2 } (by decide)⟩

/-! ## Helper lemmas and claim theorems: C9 -/

/-- An analyzed post with the spec's claimed default materialized:
    absent engagement replaced by 1. -/
def with_default_engagement_one (p : AnalyzedPost) : AnalyzedPost :=
  { p with engagement := some (p.engagement.getD 1) }

/-- A post with the aggregator's actual default materialized: absent
    engagement replaced by 0. -/
def with_default_engagement_zero (p : Post) : Post :=
  { p with engagement := some (p.engagement.getD 0) }

@[simp] theorem post_weight_default_one (p : AnalyzedPost) :
    post_weight (with_default_engagement_one p) = post_weight p := rfl

@[simp] theorem post_signal_default_one (p : AnalyzedPost) :
    post_signal (with_default_engagement_one p) = post_signal p := rfl

@[simp] theorem sentiment_default_one (p : AnalyzedPost) :
    (with_default_engagement_one p).sentiment = p.sentiment := rfl

@[simp] theorem sort_key_default_zero (p : Post) :
    sort_key (with_default_engagement_zero p) = sort_key p := rfl

@[simp] theorem text_default_zero (p : Post) :
    (with_default_engagement_zero p).text = p.text := rfl

theorem compute_map_default_one (posts : List AnalyzedPost) :
    compute (posts.map with_default_engagement_one) = compute posts := by
  cases posts with
  | nil => rfl
  | cons q rest =>
      have hw : ((q :: rest).map with_default_engagement_one).map post_weight
          = (q :: rest).map post_weight := by
        rw [List.map_map]
        exact List.map_congr_left (fun a _ => rfl)
      have hs : ((q :: rest).map with_default_engagement_one).map post_signal
          = (q :: rest).map post_signal := by
        rw [List.map_map]
        exact List.map_congr_left (fun a _ => rfl)
      have hc1 : ((q :: rest).map with_default_engagement_one).countP
            (fun p => decide (0 < p.sentiment.polarity_score))
          = (q :: rest).countP (fun p => decide (0 < p.sentiment.polarity_score)) := by
        rw [List.countP_map]
        exact List.countP_congr (fun a _ => Iff.rfl)
      have hc2 : ((q :: rest).map with_default_engagement_one).countP
            (fun p => decide (¬ 0 < p.sentiment.polarity_score))
          = (q :: rest).countP (fun p => decide (¬ 0 < p.sentiment.polarity_score)) := by
        rw [List.countP_map]
        exact List.countP_congr (fun a _ => Iff.rfl)
      have hlen : ((q :: rest).map with_default_engagement_one).length = (q :: rest).length :=
        List.length_map _ _
      unfold compute
      rw [show ((q :: rest).map with_default_engagement_one).isEmpty = false from rfl]
      rw [show (q :: rest).isEmpty = false from rfl]
      simp only [Bool.false_eq_true, if_false]
      rw [hw, hs, hc1, hc2, hlen]

theorem insert_desc_map_default_zero (p : Post) (l : List Post) :
    insert_desc (with_default_engagement_zero p) (l.map with_default_engagement_zero) =
      (insert_desc p l).map with_default_engagement_zero := by
  induction l with
  | nil => rfl
  | cons q t ih =>
      unfold insert_desc
      simp only [List.map_cons, sort_key_default_zero]
      by_cases hc : sort_key q ≤ sort_key p <;> simp [hc, ih]

theorem sort_map_default_zero (posts : List Post) :
    sort_by_engagement_desc (posts.map with_default_engagement_zero) =
      (sort_by_engagement_desc posts).map with_default_engagement_zero := by
  induction posts with
  | nil => rfl
  | cons p rest ih =>
      simp only [List.map_cons, sort_by_engagement_desc, ih, insert_desc_map_default_zero]

theorem dedup_walk_map_default_zero (l : List Post) : ∀ seen : Finset String,
    dedup_walk seen (l.map with_default_engagement_zero) =
      (dedup_walk seen l).map with_default_engagement_zero := by
  induction l with
  | nil => intro seen; rfl
  | cons p t ih =>
      intro seen
      simp only [List.map_cons, dedup_walk, text_default_zero]
      by_cases hc : text_hash (p.text.getD "") ∈ seen <;> simp [hc, ih]

/-- C9 counterexample: the aggregator's sort key defaults an absent
    engagement to 0, not 1.  With the claimed default of 1 the
    absent-engagement post would tie with an engagement-1 post and, by
    stability, stay first; in fact it sorts last. -/
theorem C9_aggregator_default_counterexample :
    sort_key { text := some "alpha beta" } ≠ 1 ∧
    aggregate [{ text := some "alpha beta" },
               { text := some "one two", engagement := some 1 }] =
      [{ text := some "one two", engagement := some 1 },
       { text := some "alpha beta" }] ∧
    aggregate [{ text := some "alpha beta", engagement := some 1 },
               { text := some "one two", engagement := some 1 }] =
      [{ text := some "alpha beta", engagement := some 1 },
       { text := some "one two", engagement := some 1 }] := by
  refine ⟨by decide, by decide, by decide⟩

/-- C9 amended: a Post whose engagement field is absent is treated as
    engagement 1 by the Scoring Engine (filling in 1 leaves compute's
    output unchanged), but as engagement 0 by the Aggregator's
    descending-engagement sort key (filling in 0 commutes with
    aggregate). -/
theorem C9_engagement_defaults :
    (∀ posts : List AnalyzedPost,
        compute (posts.map with_default_engagement_one) = compute posts) ∧
    (∀ posts : List Post,
        aggregate (posts.map with_default_engagement_zero) =
          (aggregate posts).map with_default_engagement_zero) := by
  refine ⟨compute_map_default_one, fun posts => ?_⟩
  unfold aggregate
  rw [sort_map_default_zero, dedup_walk_map_default_zero, List.map_take]

/-! ## Helper lemmas: rolling deduplicator -/

theorem dedup_loop_spec (posts : List Post) :
    ∀ (order : List String) (hset : Finset String),
    (dedup_loop order hset posts).2.1
        = order ++ ((dedup_loop order hset posts).1).map post_hash ∧
    (dedup_loop order hset posts).2.2
        = hset ∪ (((dedup_loop order hset posts).1).map post_hash).toFinset ∧
    (∀ h ∈ ((dedup_loop order hset posts).1).map post_hash, h ∉ hset) ∧
    (((dedup_loop order hset posts).1).map post_hash).Nodup ∧
    (∀ p ∈ (dedup_loop order hset posts).1,
        MIN_POST_WORD_COUNT ≤ wordCount (p.text.getD "")) := by
  induction posts with
  | nil => intro order hset; simp [dedup_loop]
  | cons post rest ih =>
      intro order hset
      simp only [dedup_loop]
      by_cases hwc : wordCount (post.text.getD "") < MIN_POST_WORD_COUNT
      · simp only [if_pos hwc]
        exact ih order hset
      · simp only [if_neg hwc]
        by_cases hmem : compute_hash (post.text.getD "") ∈ hset
        · simp only [if_pos hmem]
          exact ih order hset
        · simp only [if_neg hmem]
          obtain ⟨iho, ihs, ihf, ihn, ihw⟩ :=
            ih (order ++ [compute_hash (post.text.getD "")])
              (insert (compute_hash (post.text.getD "")) hset)
          refine ⟨?_, ?_, ?_, ?_, ?_⟩
          · simp only [List.map_cons, post_hash]
            rw [iho, List.append_assoc]
            rfl
          · simp only [List.map_cons, post_hash]
            rw [ihs, List.toFinset_cons, Finset.insert_union, Finset.union_insert]
          · intro h hh
            simp only [List.map_cons, List.mem_cons, post_hash] at hh
            rcases hh with rfl | hh
            · exact hmem
            · exact fun hs => ihf h hh (Finset.mem_insert_of_mem hs)
          · simp only [List.map_cons, List.nodup_cons, post_hash]
            refine ⟨fun hc => ?_, ihn⟩
            exact ihf _ hc (Finset.mem_insert_self _ _)
          · intro p hp
            rcases List.mem_cons.mp hp with rfl | hp
            · exact not_lt.mp hwc
            · exact ihw p hp

theorem evict_loop_fst (ord : List String) : ∀ (w : ℕ) (s : Finset String),
    (evict_loop w ord s).1 = ord.drop (ord.length - w) := by
  induction ord with
  | nil => intro w s; simp [evict_loop]
  | cons h t ih =>
      intro w s
      simp only [evict_loop]
      by_cases hc : w < (h :: t).length
      · rw [if_pos hc, ih]
        have hlen : (h :: t).length - w = (t.length - w) + 1 := by
          simp only [List.length_cons] at hc ⊢
          omega
        rw [hlen, List.drop_succ_cons]
      · rw [if_neg hc]
        have hlen : (h :: t).length - w = 0 := by
          simp only [List.length_cons, not_lt] at hc ⊢
          omega
        rw [hlen, List.drop_zero]

theorem evict_loop_snd (ord : List String) : ∀ (w : ℕ) (s : Finset String),
    ord.Nodup → s = ord.toFinset →
    (evict_loop w ord s).2 = ((evict_loop w ord s).1).toFinset := by
  induction ord with
  | nil =>
      intro w s _ hs
      simpa [evict_loop] using hs
  | cons h t ih =>
      intro w s hnd hs
      obtain ⟨hh, ht⟩ := List.nodup_cons.mp hnd
      simp only [evict_loop]
      by_cases hc : w < (h :: t).length
      · rw [if_pos hc]
        refine ih w (s.erase h) ht ?_
        rw [hs, List.toFinset_cons, Finset.erase_insert]
        rw [List.mem_toFinset]
        exact hh
      · rw [if_neg hc]
        exact hs

/-- After deduplicate: the window size field is unchanged, the new FIFO
    queue is the post-loop queue with its front dropped down to the window
    size, well-formedness is preserved, and the admitted posts are exactly
    the loop's output. -/
theorem deduplicate_state (d : RollingDeduplicator) (posts : List Post) (hwf : d.WF) :
    ((d.deduplicate posts).2).window_size = d.window_size ∧
    ((d.deduplicate posts).2).hash_order =
      ((dedup_loop d.hash_order d.hash_set posts).2.1).drop
        (((dedup_loop d.hash_order d.hash_set posts).2.1).length - d.window_size) ∧
    ((d.deduplicate posts).2).WF := by
  obtain ⟨hord, hset, hfresh, hnodup, hwc⟩ := dedup_loop_spec posts d.hash_order d.hash_set
  have hloopnodup : ((dedup_loop d.hash_order d.hash_set posts).2.1).Nodup := by
    rw [hord]
    refine List.nodup_append.mpr ⟨hwf.1, hnodup, fun a ha hb => ?_⟩
    refine hfresh a hb ?_
    rw [hwf.2, List.mem_toFinset]
    exact ha
  have hloopset : (dedup_loop d.hash_order d.hash_set posts).2.2
      = ((dedup_loop d.hash_order d.hash_set posts).2.1).toFinset := by
    rw [hord, hset, List.toFinset_append, hwf.2]
  refine ⟨rfl, ?_, ?_, ?_⟩
  · exact evict_loop_fst _ _ _
  · have he := evict_loop_fst (dedup_loop d.hash_order d.hash_set posts).2.1 d.window_size
      (dedup_loop d.hash_order d.hash_set posts).2.2
    show ((d.deduplicate posts).2).hash_order.Nodup
    have : ((d.deduplicate posts).2).hash_order =
        ((dedup_loop d.hash_order d.hash_set posts).2.1).drop
          (((dedup_loop d.hash_order d.hash_set posts).2.1).length - d.window_size) :=
      evict_loop_fst _ _ _
    rw [this]
    exact hloopnodup.sublist (List.drop_sublist _ _)
  · show ((d.deduplicate posts).2).hash_set = ((d.deduplicate posts).2).hash_order.toFinset
    exact evict_loop_snd _ _ _ hloopnodup hloopset

/-- A post whose text passes the word-count gate and whose hash is not in
    the window is admitted by a deduplicate call. -/
theorem deduplicate_singleton_admit (d : RollingDeduplicator) (p : Post)
    (hwc : MIN_POST_WORD_COUNT ≤ wordCount (p.text.getD ""))
    (hmem : post_hash p ∉ d.hash_set) :
    (d.deduplicate [p]).1 = [p] := by
  have hmem2 : compute_hash (p.text.getD "") ∉ d.hash_set := hmem
  unfold RollingDeduplicator.deduplicate
  simp only [dedup_loop]
  rw [if_neg (not_lt.mpr hwc), if_neg hmem2]

/-! ## Claim theorems: C6, C10 -/

/-- C6: after every deduplicate call on a well-formed state, the FIFO
    queue holds at most window_size hashes, the membership set holds
    exactly the queue's hashes (and the queue has no duplicates), and the
    new queue is the post-loop queue with entries dropped from the front
    (oldest first) until its length is at most window_size. -/
theorem C6_dedup_window_invariant (d : RollingDeduplicator) (posts : List Post)
    (hwf : d.WF) :
    ((d.deduplicate posts).2).hash_order.length ≤ d.window_size ∧
    ((d.deduplicate posts).2).WF ∧
    ((d.deduplicate posts).2).hash_order =
      ((dedup_loop d.hash_order d.hash_set posts).2.1).drop
        (((dedup_loop d.hash_order d.hash_set posts).2.1).length - d.window_size) := by
  obtain ⟨hw, hord, hwf2⟩ := deduplicate_state d posts hwf
  refine ⟨?_, hwf2, hord⟩
  rw [hord, List.length_drop]
  omega

/-- Witness for C6: a window of size 2 receiving three distinct valid
    posts. -/
theorem C6_dedup_window_invariant_witness :
    ({ window_size := 2, hash_order := [], hash_set := ∅ } : RollingDeduplicator).WF ∧
    (let d0 : RollingDeduplicator := { window_size := 2, hash_order := [], hash_set := ∅ }
     let batch : List Post :=
       [{ text := some "alpha one two three four" },
        { text := some "beta one two three four" },
        { text := some "gamma one two three four" }]
     ((d0.deduplicate batch).2).hash_order.length ≤ d0.window_size ∧
     ((d0.deduplicate batch).2).WF ∧
     ((d0.deduplicate batch).2).hash_order =
       ((dedup_loop d0.hash_order d0.hash_set batch).2.1).drop
         (((dedup_loop d0.hash_order d0.hash_set batch).2.1).length - d0.window_size)) :=
  ⟨by decide,
   C6_dedup_window_invariant
     { window_size := 2, hash_order := [], hash_set := ∅ }
     [{ text := some "alpha one two three four" },
      { text := some "beta one two three four" },
      { text := some "gamma one two three four" }]
     (by decide)⟩

/-- C10: when one deduplicate call admits more than window_size posts, the
    end-of-call eviction leaves only the hashes of the last window_size
    admitted posts (the earliest-admitted hashes of the batch are evicted),
    and a post whose text hashes like one of those evicted early admissions
    and passes the word-count gate is admitted again by the next call. -/
theorem C10_same_call_eviction (d : RollingDeduplicator) (posts : List Post)
    (hwf : d.WF) (hover : d.window_size < (d.deduplicate posts).1.length) :
    ((d.deduplicate posts).2).hash_order =
      (((d.deduplicate posts).1).map post_hash).drop
        ((d.deduplicate posts).1.length - d.window_size) ∧
    (∀ p : Post, MIN_POST_WORD_COUNT ≤ wordCount (p.text.getD "") →
      post_hash p ∈ (((d.deduplicate posts).1).map post_hash).take
          ((d.deduplicate posts).1.length - d.window_size) →
      (((d.deduplicate posts).2).deduplicate [p]).1 = [p]) := by
  obtain ⟨hord, hset, hfresh, hnodup, hwcall⟩ := dedup_loop_spec posts d.hash_order d.hash_set
  obtain ⟨hw2, horder2, hwf2⟩ := deduplicate_state d posts hwf
  have hres : (d.deduplicate posts).1 = (dedup_loop d.hash_order d.hash_set posts).1 := rfl
  have hlen : ((dedup_loop d.hash_order d.hash_set posts).2.1).length
      = d.hash_order.length + ((d.deduplicate posts).1).length := by
    rw [hord, List.length_append, List.length_map, hres]
  have hkey : ((d.deduplicate posts).2).hash_order =
      (((d.deduplicate posts).1).map post_hash).drop
        ((d.deduplicate posts).1.length - d.window_size) := by
    rw [horder2, hlen, hord]
    have hidx : d.hash_order.length + ((d.deduplicate posts).1).length - d.window_size
        = d.hash_order.length + (((d.deduplicate posts).1).length - d.window_size) := by
      omega
    rw [hidx, List.drop_append, hres]
  refine ⟨hkey, fun p hwcp hptake => ?_⟩
  refine deduplicate_singleton_admit _ p hwcp ?_
  rw [hwf2.2, hkey]
  rw [List.mem_toFinset]
  intro hdrop
  have hnodup2 : (((d.deduplicate posts).1).map post_hash).Nodup := by
    rw [hres]; exact hnodup
  have hsplit := List.take_append_drop
    ((d.deduplicate posts).1.length - d.window_size)
    (((d.deduplicate posts).1).map post_hash)
  rw [← hsplit] at hnodup2
  exact (List.nodup_append.mp hnodup2).2.2 hptake hdrop

/-- Witness for C10: a window of size 1 admitting two distinct posts in
    one call; the first post, resubmitted, is admitted again. -/
theorem C10_same_call_eviction_witness :
    ({ window_size := 1, hash_order := [], hash_set := ∅ } : RollingDeduplicator).WF ∧
    (let d0 : RollingDeduplicator := { window_size := 1, hash_order := [], hash_set := ∅ }
     let batch : List Post :=
       [{ text := some "alpha one two three four" },
        { text := some "beta one two three four" }]
     d0.window_size < (d0.deduplicate batch).1.length) ∧
    ((({ window_size := 1, hash_order := [], hash_set := ∅ } : RollingDeduplicator).deduplicate
        [{ text := some "alpha one two three four" },
         { text := some "beta one two three four" }]).2.deduplicate
      [{ text := some "alpha one two three four" }]).1 =
      [{ text := some "alpha one two three four" }] :=
  ⟨by decide, by decide,
   (C10_same_call_eviction
      { window_size := 1, hash_order := [], hash_set := ∅ }
      [{ text := some "alpha one two three four" },
       { text := some "beta one two three four" }]
      (by decide) (by decide)).2
     { text := some "alpha one two three four" } (by decide) (by decide)⟩

/-! ## Claim theorems: C3, C4, C8 -/

/-- Three valid twitter posts used in the router scenarios. -/
def twitterBatch : List Post :=
  [{ text := some "market looks strong today friends", engagement := some 3 },
   { text := some "selling everything right now folks", engagement := some 2 },
   { text := some "waiting for the next big catalyst", engagement := some 1 }]

/-- The stream manager state after one successful reddit fetch at t = 100
    of the twitter batch posts. -/
def smAfterFirstFetch : StreamManager :=
  { last_fetch_time := [("reddit", 100)], cache := [("reddit", twitterBatch)] }

/-- C3 (code-bug evidence): StreamManager.fetch returns a bare post list,
    never a (posts, isFresh) pair.  Concretely: a fresh fetch at t = 100
    returns the three posts and records them; a second call at t = 110
    (within the 30s cooldown) returns the identical cached list and leaves
    the state unchanged — but there is no freshness flag anywhere, and the
    router's tuple unpack `posts, is_fresh = fetch_fn()` applied to this
    three-element list takes the ValueError fallback. -/
theorem C3_fetch_returns_bare_list :
    ({} : StreamManager).fetch "reddit" 100 (.ok twitterBatch)
      = (twitterBatch, smAfterFirstFetch) ∧
    smAfterFirstFetch.fetch "reddit" 110
        (.ok [{ text := some "a newer post entirely" }])
      = (twitterBatch, smAfterFirstFetch) ∧
    timed_fetch twitterBatch = .fallback := by
  refine ⟨?_, ?_, rfl⟩
  · norm_num [StreamManager.fetch, dict_get, dict_set, smAfterFirstFetch,
      RSS_FETCH_INTERVAL, List.find?]
  · norm_num [StreamManager.fetch, dict_get, dict_set, smAfterFirstFetch,
      RSS_FETCH_INTERVAL, List.find?]

/-- C4 (code-bug evidence): in hybrid mode with the reddit adapter raising
    on every call and the twitter adapter returning three posts, get_posts
    returns the empty list — not output driven by the healthy source — and
    the failure counters of BOTH sources increment, because the tuple
    unpack in _timed_fetch raises ValueError on the healthy source's
    three-element list too.  The twitter fetch itself succeeded: its posts
    are in the stream manager's cache. -/
theorem C4_hybrid_outage_not_isolated :
    (get_posts_hybrid ⟨{}, {}, {}⟩ 100 (.error "boom") (.ok twitterBatch)).1
      = .ok [] ∧
    (dict_get ((get_posts_hybrid ⟨{}, {}, {}⟩ 100 (.error "boom")
        (.ok twitterBatch)).2.metrics.sources) "reddit" {}).failure_count = 1 ∧
    (dict_get ((get_posts_hybrid ⟨{}, {}, {}⟩ 100 (.error "boom")
        (.ok twitterBatch)).2.metrics.sources) "twitter" {}).failure_count = 1 ∧
    dict_get ((get_posts_hybrid ⟨{}, {}, {}⟩ 100 (.error "boom")
        (.ok twitterBatch)).2.sm.cache) "twitter" [] = twitterBatch := by
  have hcond : (30:ℚ) ≤ 100 := by norm_num
  simp [get_posts_hybrid, StreamManager.fetch, timed_fetch_m, record_fetch,
    dict_get, dict_set, RollingDeduplicator.deduplicate, dedup_loop, evict_loop,
    RSS_FETCH_INTERVAL, DEDUP_WINDOW_SIZE, List.find?, twitterBatch, hcond]

/-- C8: when the cooldown has elapsed and the adapter raises, fetch leaves
    the cache and the last-fetch timestamp unchanged (the state it returns
    is the input state), returns the previously cached posts for the
    source (or the empty list when none are cached), and propagates no
    exception: the failure branch of the embedded total function is
    exactly this cached fallback. -/
theorem C8_fetch_failure_isolated (sm : StreamManager) (source : String) (now : ℚ)
    (e : String)
    (h : sm.fetch_interval ≤ now - dict_get sm.last_fetch_time source 0) :
    sm.fetch source now (.error e) = (dict_get sm.cache source [], sm) := by
  unfold StreamManager.fetch
  rw [if_pos h]

/-- Witness for C8: a failing adapter called after the cooldown elapsed,
    with one post in the cache. -/
theorem C8_fetch_failure_isolated_witness :
    smAfterFirstFetch.fetch_interval
      ≤ 200 - dict_get smAfterFirstFetch.last_fetch_time "reddit" 0 ∧
    smAfterFirstFetch.fetch "reddit" 200 (.error "boom")
      = (dict_get smAfterFirstFetch.cache "reddit" [], smAfterFirstFetch) :=
  ⟨by norm_num [smAfterFirstFetch, dict_get, List.find?, RSS_FETCH_INTERVAL],
   C8_fetch_failure_isolated smAfterFirstFetch "reddit" 200 "boom"
     (by norm_num [smAfterFirstFetch, dict_get, List.find?, RSS_FETCH_INTERVAL])⟩

end SentimentOracle
